import Mathlib

/-!
Verification of the Gradient M chatbot conversation-turn pipeline
(`chat_bot_app.py`): the reply sanitizer `clean_response`, the turn
executor `get_chatbot_response`, the `chat` POST route and `reset`.

Text is modelled as `List Char` (a Lean `String` is a wrapper around its
`.data : List Char`).  Python regular-expression substitutions are
embedded as executable left-to-right scans with the standard leftmost,
non-overlapping match semantics of `re.sub`.  Wall-clock timestamps and
the external completion service are modelled as explicit parameters: a
successful call is `some reply`, a failed call (network error or missing
candidate) is `none`.
-/

namespace GradientM

/-- Whitespace as matched by the regular-expression class `\s` and by
`str.strip()`, restricted to the ASCII range: space, tab, newline,
carriage return, vertical tab, form feed. -/
def isWs (c : Char) : Bool :=
  c = ' ' || c = '\t' || c = '\n' || c = '\r' || c = '\x0b' || c = '\x0c'

/-- Tail of the citation-marker pattern `\[doc\d+\]` after `[doc` and one
digit have been consumed: zero or more further digits, then `]`.
Returns the remaining characters after the closing bracket. -/
def closeMarker : List Char → Option (List Char)
  | [] => none
  | c :: cs => if c = ']' then some cs else if c.isDigit then closeMarker cs else none

/-- Match the citation-marker pattern `\[doc\d+\]` at the head of the
list: literal `[doc`, one or more digits, literal `]`.  On success,
returns the characters after the marker.  (Because `]` is not a digit,
the greedy `\d+` of the Python pattern matches exactly the maximal digit
run, which is what the recursion in `closeMarker` consumes.) -/
def matchMarker (l : List Char) : Option (List Char) :=
  match l with
  | a :: b :: c :: d :: e :: rest =>
    if a = '[' ∧ b = 'd' ∧ c = 'o' ∧ d = 'c' ∧ e.isDigit = true then closeMarker rest
    else none
  | _ => none

theorem closeMarker_length_lt : ∀ {l r : List Char}, closeMarker l = some r →
    r.length < l.length
  | c :: cs, r, h => by
    simp only [closeMarker] at h
    by_cases hc : c = ']'
    · simp only [hc, if_pos rfl] at h
      cases h; simp
    · rw [if_neg hc] at h
      by_cases hd : c.isDigit
      · rw [if_pos hd] at h
        exact Nat.lt_trans (closeMarker_length_lt h) (by simp)
      · rw [if_neg hd] at h; cases h

theorem matchMarker_length_lt {l r : List Char} (h : matchMarker l = some r) :
    r.length < l.length := by
  match l with
  | a :: b :: c :: d :: e :: rest =>
    simp only [matchMarker] at h
    split at h
    · have := closeMarker_length_lt h
      simp only [List.length_cons]
      omega
    · cases h
  | [] => cases h
  | [a] => cases h
  | [a, b] => cases h
  | [a, b, c] => cases h
  | [a, b, c, d] => cases h

/-- First pass of `clean_response`: `re.sub(r"\[doc\d+\]", "", text)`.
Leftmost, non-overlapping match-and-delete: at each position, if the
marker pattern matches there the match is deleted and scanning resumes
after it; otherwise the character is kept and scanning advances by one. -/
def removeMarkers (l : List Char) : List Char :=
  match hm : matchMarker l with
  | some rest => removeMarkers rest
  | none =>
    match l with
    | [] => []
    | c :: cs => c :: removeMarkers cs
termination_by l.length
decreasing_by
  · exact matchMarker_length_lt hm
  · simp

/-- Scanning core of the second pass `re.sub(r"\s+\.", ".", text)`.
`pending` accumulates the current run of whitespace characters (in
order).  When the run is ended by a period the whole run-plus-period is
replaced by a single period; any other ending flushes the run verbatim.
Scanning resumes after the replacement (non-overlapping matches). -/
def wsDotGo (pending : List Char) : List Char → List Char
  | [] => pending
  | c :: cs =>
    if isWs c then wsDotGo (pending ++ [c]) cs
    else if c = '.' ∧ pending ≠ [] then '.' :: wsDotGo [] cs
    else pending ++ c :: wsDotGo [] cs

/-- Second pass of `clean_response`: `re.sub(r"\s+\.", ".", text)`,
collapsing every run of whitespace immediately followed by a period into
just the period. -/
def collapseWsDot (l : List Char) : List Char := wsDotGo [] l

/-- Third pass of `clean_response`: `re.sub(r"\s+", " ", text)`,
replacing every maximal run of whitespace by a single space (a run of
length k drops its first k-1 characters and emits one space). -/
def collapseWs : List Char → List Char
  | [] => []
  | [c] => if isWs c then [' '] else [c]
  | a :: b :: t =>
    if isWs a && isWs b then collapseWs (b :: t)
    else (if isWs a then ' ' else a) :: collapseWs (b :: t)

/-- Python `str.strip()`: drop leading and trailing whitespace. -/
def stripChars (l : List Char) : List Char :=
  ((l.dropWhile isWs).reverse.dropWhile isWs).reverse

/-- The full sanitizer pipeline of `clean_response` on character lists:
remove citation markers, collapse whitespace before periods, collapse
whitespace runs to single spaces, strip the ends. -/
def cleanChars (l : List Char) : List Char :=
  stripChars (collapseWs (collapseWsDot (removeMarkers l)))

/-- `clean_response(text)` from `chat_bot_app.py` (lines 69-73). -/
def clean_response (s : String) : String := ⟨cleanChars s.data⟩

/-- Python `str.strip()` on strings, as used by the `chat` route on the
submitted form field. -/
def pyStrip (s : String) : String := ⟨stripChars s.data⟩

/-- Role tag of a conversation turn: the dictionaries in
`conversation_history` carry `"role": "assistant"` or `"role": "user"`. -/
inductive Role where
  | assistant
  | user
deriving DecidableEq, Repr

/-- The role string sent to the completion API for a role tag. -/
def roleStr : Role → String
  | .assistant => "assistant"
  | .user => "user"

/-- One entry of `conversation_history`: a dict with keys `role`,
`content`, `timestamp` (`chat_bot_app.py` lines 80-86, 96-98, 139-145). -/
structure Turn where
  role : Role
  content : String
  timestamp : String
deriving DecidableEq, Repr

/-- The seeded greeting content (lines 82-83 and 232-233). -/
def greetingText : String := "Hello! How can I assist you today?"

/-- The seeded assistant greeting turn, with a given creation time. -/
def greetingTurn (ts : String) : Turn := ⟨.assistant, greetingText, ts⟩

/-- The initial `conversation_history` built at process start (lines 80-86). -/
def initHistory (ts : String) : List Turn := [greetingTurn ts]

/-- Environment-sourced configuration used when building the outbound
request (deployment name, search endpoint, index name, search key). -/
structure Config where
  deployment : String
  searchEndpoint : String
  searchIndex : String
  searchKey : String
deriving DecidableEq, Repr

/-- The `authentication` block of the `azure_search` data source
(lines 127-130). -/
structure SearchAuth where
  type : String
  key : String
deriving DecidableEq, Repr

/-- The `parameters` of the single `azure_search` entry of
`extra_body.data_sources` (lines 113-133). -/
structure SearchSource where
  endpoint : String
  index_name : String
  semantic_configuration : String
  query_type : String
  fields_mapping : List (String × String)
  in_scope : Bool
  filter : Option String
  strictness : Nat
  top_n_documents : Nat
  authentication : SearchAuth
deriving DecidableEq, Repr

/-- The outbound request of `client.chat.completions.create`
(lines 105-135): message list as `(role, content)` string pairs in
transcript order, fixed decoding parameters, one search data source. -/
structure ChatRequest where
  model : String
  messages : List (String × String)
  max_tokens : Nat
  temperature : ℚ
  top_p : ℚ
  frequency_penalty : ℚ
  presence_penalty : ℚ
  data_sources : List SearchSource
deriving DecidableEq, Repr

/-- The request `get_chatbot_response` sends for a given transcript
(the transcript already containing the just-appended user turn). -/
def buildRequest (cfg : Config) (history : List Turn) : ChatRequest :=
  { model := cfg.deployment
    messages := history.map fun m => (roleStr m.role, m.content)
    max_tokens := 800
    temperature := 0.7
    top_p := 0.95
    frequency_penalty := 0.0
    presence_penalty := 0.0
    data_sources := [{
      endpoint := cfg.searchEndpoint
      index_name := cfg.searchIndex
      semantic_configuration := "default"
      query_type := "simple"
      fields_mapping := []
      in_scope := true
      filter := none
      strictness := 3
      top_n_documents := 5
      authentication := { type := "api_key", key := cfg.searchKey } }] }

/-- `get_chatbot_response(user_message)` (lines 93-147) as a state
transformer.  The user turn is appended first; the request is built from
the transcript including it; `externalReply` is the outcome of the
external call (`some r`: the first candidate's text is `r`; `none`: the
call raised or returned no candidate, so the function aborts before the
assistant turn is appended).  Returns the new transcript, the outbound
request, and the returned reply (if any). -/
def get_chatbot_response (cfg : Config) (history : List Turn)
    (user_message : String) (tsUser tsAsst : String)
    (externalReply : Option String) : List Turn × ChatRequest × Option String :=
  let h1 := history ++ [⟨.user, user_message, tsUser⟩]
  let req := buildRequest cfg h1
  match externalReply with
  | none => (h1, req, none)
  | some r =>
    let reply := clean_response r
    (h1 ++ [⟨.assistant, reply, tsAsst⟩], req, some reply)

/-- The POST branch of the `chat` route (lines 211-218):
`user_q = request.form.get("question", "").strip()`; if non-empty, run
`get_chatbot_response(user_q)`.  Returns the new transcript, whether the
executor (and hence the external service) was invoked, and the reply. -/
def chat_post (cfg : Config) (history : List Turn) (rawQuestion : String)
    (tsUser tsAsst : String) (externalReply : Option String) :
    List Turn × Bool × Option String :=
  let user_q := pyStrip rawQuestion
  if user_q = "" then (history, false, none)
  else
    let out := get_chatbot_response cfg history user_q tsUser tsAsst externalReply
    (out.1, true, out.2.2)

/-- The `reset` route (lines 227-238): the prior transcript is discarded
and replaced by a fresh single-greeting transcript. -/
def resetTranscript (_prior : List Turn) (ts : String) : List Turn :=
  [greetingTurn ts]

/-- Transcript states reachable by completed operations: initial
seeding, submissions through the POST `chat` route whose external call
completed successfully (this also covers empty submissions, which leave
the transcript unchanged), and resets. -/
inductive Reachable (cfg : Config) : List Turn → Prop
  | init (ts : String) : Reachable cfg (initHistory ts)
  | submit (h : List Turn) (raw tsU tsA r : String) : Reachable cfg h →
      Reachable cfg (chat_post cfg h raw tsU tsA (some r)).1
  | reset (h : List Turn) (ts : String) : Reachable cfg h →
      Reachable cfg (resetTranscript h ts)

/-- Does the character list contain an occurrence of the citation-marker
pattern `\[doc\d+\]` anywhere? -/
def hasMarker : List Char → Bool
  | [] => false
  | c :: cs => (matchMarker (c :: cs)).isSome || hasMarker cs

/-- Every occurrence of `[` in the list begins a complete citation
marker.  (Sanitizer inputs of this shape cannot splice a new marker
together out of the residue left by marker deletion.) -/
def okBrackets : List Char → Bool
  | [] => true
  | c :: cs => (c ≠ '[' || (matchMarker (c :: cs)).isSome) && okBrackets cs

/-- Transcript tails in which user and assistant turns strictly
alternate in user–assistant pairs. -/
inductive Alternating : List Turn → Prop
  | nil : Alternating []
  | pair (u a : Turn) (t : List Turn) : u.role = .user → a.role = .assistant →
      Alternating t → Alternating (u :: a :: t)

/-- Adjacency constraint: a whitespace character is never followed by
another whitespace character. -/
def wsPair (a b : Char) : Prop := isWs a = true → isWs b = false

/-- Adjacency constraint: a whitespace character is never followed by a
period. -/
def dotPair (a b : Char) : Prop := isWs a = true → b ≠ '.'

/-- The list contains no run of two or more consecutive whitespace
characters. -/
def noWsRun (l : List Char) : Prop := l.Chain' wsPair

/-- The list contains no whitespace character immediately followed by a
period. -/
def noWsDot (l : List Char) : Prop := l.Chain' dotPair

theorem stripChars_eq_rdrop (l : List Char) :
    stripChars l = List.rdropWhile isWs (l.dropWhile isWs) := rfl

theorem strip_aux (m : List Char) (hms : m.dropWhile isWs = m) :
    (List.rdropWhile isWs m).dropWhile isWs = List.rdropWhile isWs m := by
  cases hs : List.rdropWhile isWs m with
  | nil => simp
  | cons c cs =>
    obtain ⟨t, ht⟩ := List.rdropWhile_prefix isWs m
    rw [hs] at ht
    have hcws : isWs c = false := by
      by_cases hw : isWs c = true
      · exfalso
        rw [← ht, List.cons_append, List.dropWhile_cons, hw, if_pos rfl] at hms
        have := (List.dropWhile_sublist (l := cs ++ t) (p := isWs)).length_le
        rw [hms] at this
        simp at this
      · simpa using hw
    rw [List.dropWhile_cons, hcws]
    simp

theorem stripChars_idem (l : List Char) : stripChars (stripChars l) = stripChars l := by
  rw [show stripChars l = List.rdropWhile isWs (l.dropWhile isWs) from rfl]
  rw [show stripChars (List.rdropWhile isWs (l.dropWhile isWs)) =
        List.rdropWhile isWs
          ((List.rdropWhile isWs (l.dropWhile isWs)).dropWhile isWs) from rfl]
  rw [strip_aux _ (List.dropWhile_idempotent isWs l), List.rdropWhile_idempotent]

theorem pyStrip_idem (s : String) : pyStrip (pyStrip s) = pyStrip s := by
  show (⟨stripChars (stripChars s.data)⟩ : String) = ⟨stripChars s.data⟩
  rw [stripChars_idem]

/-- C1: a successful non-empty submission appends exactly the user turn
(with the submitted text) and then the assistant turn (with the sanitized
reply) to the prior transcript, leaving every prior turn in place, and
returns the sanitized reply. -/
theorem claim_C1 (cfg : Config) (h : List Turn) (raw tsU tsA r : String)
    (hne : pyStrip raw ≠ "") :
    chat_post cfg h raw tsU tsA (some r) =
      (h ++ [⟨.user, pyStrip raw, tsU⟩, ⟨.assistant, clean_response r, tsA⟩],
        true, some (clean_response r)) := by
  simp [chat_post, get_chatbot_response, hne]

theorem claim_C1_witness :
    pyStrip "hi" ≠ "" ∧
      chat_post ⟨"d", "se", "si", "sk"⟩ [] "hi" "t1" "t2" (some "ok") =
        ([⟨.user, pyStrip "hi", "t1"⟩, ⟨.assistant, clean_response "ok", "t2"⟩],
          true, some (clean_response "ok")) :=
  ⟨by decide, claim_C1 ⟨"d", "se", "si", "sk"⟩ [] "hi" "t1" "t2" "ok" (by decide)⟩

/-- C4: a submission that is empty after trimming neither invokes the
external service nor changes the transcript. -/
theorem claim_C4 (cfg : Config) (h : List Turn) (raw tsU tsA : String)
    (rep : Option String) (he : pyStrip raw = "") :
    chat_post cfg h raw tsU tsA rep = (h, false, none) := by
  simp [chat_post, he]

theorem claim_C4_witness :
    pyStrip " \t " = "" ∧
      chat_post ⟨"d", "se", "si", "sk"⟩ [greetingTurn "t0"] " \t " "t1" "t2" (some "ok") =
        ([greetingTurn "t0"], false, none) :=
  ⟨by decide,
    claim_C4 ⟨"d", "se", "si", "sk"⟩ [greetingTurn "t0"] " \t " "t1" "t2" (some "ok")
      (by decide)⟩

/-- C5: a reset yields, regardless of the prior transcript, a transcript
of length exactly 1 whose single turn is an assistant turn carrying the
fixed greeting text and the fresh timestamp. -/
theorem claim_C5 (prior : List Turn) (ts : String) :
    resetTranscript prior ts = [⟨.assistant, "Hello! How can I assist you today?", ts⟩] ∧
    (resetTranscript prior ts).length = 1 := by
  exact ⟨rfl, rfl⟩

/-- C8: the outbound request carries the `(role, content)` projection of
every turn of the transcript (the appended user turn included), in
order, with max 800 tokens, temperature 0.7, top-p 0.95, zero frequency
and presence penalties, and one search data source with simple query
mode, top 5 documents and strictness 3. -/
theorem claim_C8 (cfg : Config) (h : List Turn) (msg tsU tsA : String)
    (rep : Option String) :
    (get_chatbot_response cfg h msg tsU tsA rep).2.1.messages =
        (h ++ [(⟨.user, msg, tsU⟩ : Turn)]).map (fun m => (roleStr m.role, m.content)) ∧
    (get_chatbot_response cfg h msg tsU tsA rep).2.1.max_tokens = 800 ∧
    (get_chatbot_response cfg h msg tsU tsA rep).2.1.temperature = 0.7 ∧
    (get_chatbot_response cfg h msg tsU tsA rep).2.1.top_p = 0.95 ∧
    (get_chatbot_response cfg h msg tsU tsA rep).2.1.frequency_penalty = 0 ∧
    (get_chatbot_response cfg h msg tsU tsA rep).2.1.presence_penalty = 0 ∧
    (get_chatbot_response cfg h msg tsU tsA rep).2.1.data_sources.map
        (fun d => (d.query_type, d.top_n_documents, d.strictness)) = [("simple", 5, 3)] := by
  cases rep <;>
    exact ⟨rfl, rfl, rfl, rfl, by show (0.0 : ℚ) = 0; norm_num,
      by show (0.0 : ℚ) = 0; norm_num, rfl⟩

/-- C9: when the external call fails (`none`), the user turn has already
been appended and no assistant turn follows: the transcript has grown by
exactly one, its last turn is the user turn, and no reply is produced. -/
theorem claim_C9 (cfg : Config) (h : List Turn) (msg tsU tsA : String) :
    (get_chatbot_response cfg h msg tsU tsA none).1 = h ++ [⟨.user, msg, tsU⟩] ∧
    (get_chatbot_response cfg h msg tsU tsA none).1.length = h.length + 1 ∧
    (get_chatbot_response cfg h msg tsU tsA none).1.getLast? = some ⟨.user, msg, tsU⟩ ∧
    (get_chatbot_response cfg h msg tsU tsA none).2.2 = none := by
  refine ⟨rfl, by simp [get_chatbot_response], ?_, rfl⟩
  show (h ++ [(⟨.user, msg, tsU⟩ : Turn)]).getLast? = _
  simp

/-- C10: the user turn stored by a non-empty POST submission carries the
whitespace-trimmed form of the submitted field, and that stored content
has no leading or trailing whitespace (trimming it again is a no-op). -/
theorem claim_C10 (cfg : Config) (h : List Turn) (raw tsU tsA r : String)
    (hne : pyStrip raw ≠ "") :
    (chat_post cfg h raw tsU tsA (some r)).1 =
      h ++ [⟨.user, pyStrip raw, tsU⟩, ⟨.assistant, clean_response r, tsA⟩] ∧
    pyStrip (pyStrip raw) = pyStrip raw := by
  constructor
  · simp [chat_post, get_chatbot_response, hne]
  · exact pyStrip_idem raw

theorem removeMarkers_nil : removeMarkers [] = [] := by
  rw [removeMarkers]; rfl

theorem removeMarkers_eq_some {l rest : List Char} (hm : matchMarker l = some rest) :
    removeMarkers l = removeMarkers rest := by
  rw [removeMarkers]
  split
  · next r heq => rw [hm] at heq; cases heq; rfl
  · next heq => simp [hm] at heq

theorem removeMarkers_eq_none {c : Char} {cs : List Char}
    (hm : matchMarker (c :: cs) = none) :
    removeMarkers (c :: cs) = c :: removeMarkers cs := by
  rw [removeMarkers]
  split
  · next r heq => simp [hm] at heq
  · rfl

theorem closeMarker_suffix : ∀ {l r : List Char}, closeMarker l = some r →
    ∃ pre, pre ++ r = l
  | c :: cs, r, h => by
    simp only [closeMarker] at h
    by_cases hc : c = ']'
    · rw [if_pos hc] at h
      cases h
      exact ⟨[c], rfl⟩
    · rw [if_neg hc] at h
      by_cases hd : c.isDigit
      · rw [if_pos hd] at h
        obtain ⟨pre, hpre⟩ := closeMarker_suffix h
        exact ⟨c :: pre, by simp [hpre]⟩
      · rw [if_neg hd] at h; cases h

theorem matchMarker_suffix {l r : List Char} (hm : matchMarker l = some r) :
    ∃ pre, pre ++ r = l := by
  match l with
  | a :: b :: c :: d :: e :: rest =>
    simp only [matchMarker] at hm
    split at hm
    · obtain ⟨pre, hpre⟩ := closeMarker_suffix hm
      exact ⟨a :: b :: c :: d :: e :: pre, by simp [hpre]⟩
    · cases hm
  | [] => cases hm
  | [a] => cases hm
  | [a, b] => cases hm
  | [a, b, c] => cases hm
  | [a, b, c, d] => cases hm

theorem matchMarker_head {l r : List Char} (hm : matchMarker l = some r) :
    ∃ cs, l = '[' :: cs := by
  match l with
  | a :: b :: c :: d :: e :: rest =>
    simp only [matchMarker] at hm
    split at hm
    · next hcond => exact ⟨_, by rw [hcond.1]⟩
    · cases hm
  | [] => cases hm
  | [a] => cases hm
  | [a, b] => cases hm
  | [a, b, c] => cases hm
  | [a, b, c, d] => cases hm

theorem okBrackets_tail {c : Char} {cs : List Char} (h : okBrackets (c :: cs) = true) :
    okBrackets cs = true := by
  simp only [okBrackets, Bool.and_eq_true] at h
  exact h.2

theorem okBrackets_suffix : ∀ (pre l : List Char),
    okBrackets (pre ++ l) = true → okBrackets l = true
  | [], _, h => h
  | _c :: pre, l, h => okBrackets_suffix pre l (okBrackets_tail h)

theorem okBrackets_head {c : Char} {cs : List Char} (h : okBrackets (c :: cs) = true)
    (hm : matchMarker (c :: cs) = none) : c ≠ '[' := by
  simp only [okBrackets, hm, Bool.and_eq_true, Bool.or_eq_true, Option.isSome_none,
    decide_eq_true_eq] at h
  rcases h.1 with h1 | h1
  · exact h1
  · cases h1

theorem no_lb_removeMarkers (l : List Char) (hok : okBrackets l = true) :
    '[' ∉ removeMarkers l := by
  induction l using removeMarkers.induct with
  | case1 x rest hm ih =>
    rw [removeMarkers_eq_some hm]
    obtain ⟨pre, hpre⟩ := matchMarker_suffix hm
    exact ih (okBrackets_suffix pre rest (hpre ▸ hok))
  | case2 _ _ => rw [removeMarkers_nil]; simp
  | case3 c cs hm _ ih =>
    rw [removeMarkers_eq_none hm]
    intro hmem
    rcases List.mem_cons.mp hmem with h1 | h1
    · exact okBrackets_head hok hm h1.symm
    · exact ih (okBrackets_tail hok) h1

theorem removeMarkers_id (l : List Char) (hnb : '[' ∉ l) : removeMarkers l = l := by
  induction l using removeMarkers.induct with
  | case1 x rest hm ih =>
    obtain ⟨cs, rfl⟩ := matchMarker_head hm
    exact absurd (List.mem_cons_self _ _) hnb
  | case2 _ _ => exact removeMarkers_nil
  | case3 c cs hm _ ih =>
    rw [removeMarkers_eq_none hm, ih fun h => hnb (List.mem_cons_of_mem _ h)]

theorem hasMarker_eq_false : ∀ (l : List Char), '[' ∉ l → hasMarker l = false
  | [], _ => rfl
  | c :: cs, hnb => by
    simp only [hasMarker, Bool.or_eq_false_iff]
    constructor
    · cases hm : matchMarker (c :: cs) with
      | none => rfl
      | some r =>
        obtain ⟨cs', heq⟩ := matchMarker_head hm
        cases heq
        exact absurd (List.mem_cons_self _ _) hnb
    · exact hasMarker_eq_false cs fun h => hnb (List.mem_cons_of_mem _ h)

theorem mem_wsDotGo : ∀ (l p : List Char) {x : Char}, x ∈ wsDotGo p l → x ∈ p ∨ x ∈ l
  | [], p, x, h => Or.inl h
  | c :: cs, p, x, h => by
    simp only [wsDotGo] at h
    by_cases hw : isWs c = true
    · rw [if_pos hw] at h
      rcases mem_wsDotGo cs (p ++ [c]) h with h1 | h1
      · rcases List.mem_append.mp h1 with h2 | h2
        · exact Or.inl h2
        · exact Or.inr (by simp at h2; simp [h2])
      · exact Or.inr (List.mem_cons_of_mem _ h1)
    · rw [if_neg hw] at h
      by_cases hd : c = '.' ∧ p ≠ []
      · rw [if_pos hd] at h
        rcases List.mem_cons.mp h with h1 | h1
        · exact Or.inr (by simp [h1, hd.1])
        · rcases mem_wsDotGo cs [] h1 with h2 | h2
          · cases h2
          · exact Or.inr (List.mem_cons_of_mem _ h2)
      · rw [if_neg hd] at h
        rcases List.mem_append.mp h with h1 | h1
        · exact Or.inl h1
        · rcases List.mem_cons.mp h1 with h2 | h2
          · exact Or.inr (by simp [h2])
          · rcases mem_wsDotGo cs [] h2 with h3 | h3
            · cases h3
            · exact Or.inr (List.mem_cons_of_mem _ h3)

theorem mem_collapseWs : ∀ (l : List Char) {x : Char}, x ∈ collapseWs l → x ∈ l ∨ x = ' '
  | [], x, h => by cases h
  | [c], x, h => by
    simp only [collapseWs] at h
    by_cases hw : isWs c = true
    · rw [if_pos hw] at h
      simp at h
      exact Or.inr h
    · rw [if_neg hw] at h
      exact Or.inl h
  | a :: b :: t, x, h => by
    simp only [collapseWs] at h
    by_cases hab : (isWs a && isWs b) = true
    · rw [if_pos hab] at h
      rcases mem_collapseWs (b :: t) h with h1 | h1
      · exact Or.inl (List.mem_cons_of_mem _ h1)
      · exact Or.inr h1
    · rw [if_neg hab] at h
      rcases List.mem_cons.mp h with h1 | h1
      · by_cases hw : isWs a = true
        · rw [if_pos hw] at h1
          exact Or.inr h1
        · rw [if_neg hw] at h1
          exact Or.inl (by simp [h1])
      · rcases mem_collapseWs (b :: t) h1 with h2 | h2
        · exact Or.inl (List.mem_cons_of_mem _ h2)
        · exact Or.inr h2

theorem mem_stripChars {l : List Char} {x : Char} (h : x ∈ stripChars l) : x ∈ l := by
  have hpre := List.rdropWhile_prefix isWs (l.dropWhile isWs)
  have h1 : x ∈ l.dropWhile isWs := hpre.sublist.subset h
  exact (List.dropWhile_suffix isWs).sublist.subset h1

theorem mem_cleanChars {l : List Char} {x : Char} (h : x ∈ cleanChars l)
    (hx : x ≠ ' ') : x ∈ removeMarkers l := by
  have h1 := mem_stripChars h
  rcases mem_collapseWs _ h1 with h2 | h2
  · rcases mem_wsDotGo _ [] h2 with h3 | h3
    · cases h3
    · exact h3
  · exact absurd h2 hx

theorem claim_C10_witness :
    pyStrip " hi " ≠ "" ∧
      ((chat_post ⟨"d", "se", "si", "sk"⟩ [] " hi " "t1" "t2" (some "ok")).1 =
          [⟨.user, pyStrip " hi ", "t1"⟩, ⟨.assistant, clean_response "ok", "t2"⟩] ∧
        pyStrip (pyStrip " hi ") = pyStrip " hi ") :=
  ⟨by decide, claim_C10 ⟨"d", "se", "si", "sk"⟩ [] " hi " "t1" "t2" "ok" (by decide)⟩

theorem collapseWs_head (b : Char) (t : List Char) (hb : isWs b = false) :
    (collapseWs (b :: t)).head? = some b := by
  cases t with
  | nil => simp [collapseWs, hb]
  | cons d t' => simp [collapseWs, hb]

theorem noWsRun_collapseWs : ∀ (l : List Char), noWsRun (collapseWs l)
  | [] => by simp [noWsRun, collapseWs]
  | [c] => by by_cases h : isWs c = true <;> simp [noWsRun, collapseWs, h]
  | a :: b :: t => by
    have ih := noWsRun_collapseWs (b :: t)
    by_cases hab : (isWs a && isWs b) = true
    · simpa [noWsRun, collapseWs, hab] using ih
    · rw [show collapseWs (a :: b :: t) = (if isWs a then ' ' else a) :: collapseWs (b :: t)
        from by simp [collapseWs, hab]]
      rw [noWsRun, List.chain'_cons']
      refine ⟨?_, ih⟩
      intro y hy
      by_cases hwa : isWs a = true
      · have hwb : isWs b = false := by
          cases hb : isWs b
          · rfl
          · rw [hwa, hb] at hab; simp at hab
        rw [collapseWs_head b t hwb] at hy
        simp only [Option.mem_def, Option.some.injEq] at hy
        subst hy
        exact fun _ => hwb
      · intro hcon
        rw [if_neg hwa] at hcon
        exact absurd hcon (by simp [hwa])

theorem noWsDot_collapseWs : ∀ (l : List Char), noWsDot l → noWsDot (collapseWs l)
  | [] => fun _ => by simp [noWsDot, collapseWs]
  | [c] => fun _ => by by_cases h : isWs c = true <;> simp [noWsDot, collapseWs, h]
  | a :: b :: t => fun h => by
    have hab' : dotPair a b := (List.chain'_cons.mp h).1
    have htail : List.Chain' dotPair (b :: t) := (List.chain'_cons.mp h).2
    have ih := noWsDot_collapseWs (b :: t) htail
    by_cases hab : (isWs a && isWs b) = true
    · simpa [noWsDot, collapseWs, hab] using ih
    · rw [show collapseWs (a :: b :: t) = (if isWs a then ' ' else a) :: collapseWs (b :: t)
        from by simp [collapseWs, hab]]
      rw [noWsDot, List.chain'_cons']
      refine ⟨?_, ih⟩
      intro y hy
      by_cases hwa : isWs a = true
      · have hwb : isWs b = false := by
          cases hb : isWs b
          · rfl
          · rw [hwa, hb] at hab; simp at hab
        rw [collapseWs_head b t hwb] at hy
        simp only [Option.mem_def, Option.some.injEq] at hy
        subst hy
        exact fun _ => hab' hwa
      · intro hcon
        rw [if_neg hwa] at hcon
        exact absurd hcon (by simp [hwa])

theorem ws_collapseWs : ∀ (l : List Char) {x : Char}, x ∈ collapseWs l →
    isWs x = true → x = ' '
  | [], x, h, _ => by cases h
  | [c], x, h, hw => by
    by_cases hwc : isWs c = true
    · simp [collapseWs, hwc] at h; exact h
    · simp [collapseWs, hwc] at h
      subst h
      exact absurd hw (by simp [hwc])
  | a :: b :: t, x, h, hw => by
    by_cases hab : (isWs a && isWs b) = true
    · rw [show collapseWs (a :: b :: t) = collapseWs (b :: t)
        from by simp [collapseWs, hab]] at h
      exact ws_collapseWs (b :: t) h hw
    · rw [show collapseWs (a :: b :: t) = (if isWs a then ' ' else a) :: collapseWs (b :: t)
        from by simp [collapseWs, hab]] at h
      rcases List.mem_cons.mp h with h1 | h1
      · by_cases hwa : isWs a = true
        · rw [if_pos hwa] at h1; exact h1
        · rw [if_neg hwa] at h1
          subst h1
          exact absurd hw (by simp [hwa])
      · exact ws_collapseWs (b :: t) h1 hw

theorem chainDot_of_ws : ∀ (p : List Char), (∀ c ∈ p, isWs c = true) →
    List.Chain' dotPair p
  | [], _ => List.chain'_nil
  | [c], _ => List.chain'_singleton c
  | a :: b :: t, h => by
    rw [List.chain'_cons]
    constructor
    · intro _ hbdot
      have hb : isWs b = true := h b (by simp)
      rw [hbdot] at hb
      simp [isWs] at hb
    · exact chainDot_of_ws (b :: t) fun c hc => h c (List.mem_cons_of_mem _ hc)

theorem noWsDot_wsDotGo : ∀ (l p : List Char), (∀ c ∈ p, isWs c = true) →
    noWsDot (wsDotGo p l)
  | [], p, hp => chainDot_of_ws p hp
  | c :: cs, p, hp => by
    simp only [wsDotGo]
    by_cases hw : isWs c = true
    · rw [if_pos hw]
      refine noWsDot_wsDotGo cs (p ++ [c]) ?_
      intro x hx
      rcases List.mem_append.mp hx with h1 | h1
      · exact hp x h1
      · simp at h1; subst h1; exact hw
    · rw [if_neg hw]
      by_cases hd : c = '.' ∧ p ≠ []
      · rw [if_pos hd]
        rw [noWsDot, List.chain'_cons']
        refine ⟨?_, noWsDot_wsDotGo cs [] (by simp)⟩
        intro y _ hdotws
        simp [isWs] at hdotws
      · rw [if_neg hd]
        rw [noWsDot, List.chain'_append]
        refine ⟨chainDot_of_ws p hp, ?_, ?_⟩
        · rw [List.chain'_cons']
          refine ⟨?_, noWsDot_wsDotGo cs [] (by simp)⟩
          intro y _ hcws
          exact absurd hcws (by simp [hw])
        · intro x hx y hy
          obtain ⟨hpne, _⟩ := List.mem_getLast?_eq_getLast hx
          simp only [List.head?_cons, Option.mem_def, Option.some.injEq] at hy
          subst hy
          intro _
          intro hceq
          exact hd ⟨hceq, hpne⟩

theorem stripChars_decomp (l : List Char) : ∃ pre suf, l = pre ++ stripChars l ++ suf := by
  obtain ⟨pre, hpre⟩ := List.dropWhile_suffix (l := l) (p := isWs)
  obtain ⟨suf, hsuf⟩ := List.rdropWhile_prefix isWs (l.dropWhile isWs)
  refine ⟨pre, suf, ?_⟩
  rw [stripChars_eq_rdrop, List.append_assoc, hsuf, hpre]

theorem chain_stripChars {R : Char → Char → Prop} {l : List Char}
    (h : l.Chain' R) : (stripChars l).Chain' R := by
  obtain ⟨pre, suf, hdec⟩ := stripChars_decomp l
  rw [hdec, List.append_assoc] at h
  exact h.right_of_append.left_of_append

/-- C7: on every input, the sanitizer output has no run of two or more
consecutive whitespace characters, no whitespace immediately before a
period (in particular before a final one), and no leading or trailing
whitespace (stripping it again is a no-op). -/
theorem claim_C7 (s : String) :
    noWsRun (clean_response s).data ∧ noWsDot (clean_response s).data ∧
      stripChars (clean_response s).data = (clean_response s).data := by
  refine ⟨?_, ?_, ?_⟩
  · exact chain_stripChars (noWsRun_collapseWs _)
  · exact chain_stripChars (noWsDot_collapseWs _ (noWsDot_wsDotGo _ [] (by simp)))
  · exact stripChars_idem _

theorem wsDotGo_id : ∀ (l : List Char), noWsRun l → noWsDot l → wsDotGo [] l = l
  | [], _, _ => rfl
  | c :: cs, h1, h2 => by
    simp only [wsDotGo]
    by_cases hw : isWs c = true
    · rw [if_pos hw]
      cases cs with
      | nil => rfl
      | cons d cs' =>
        have hd : isWs d = false := (List.chain'_cons.mp h1).1 hw
        have hdot : d ≠ '.' := (List.chain'_cons.mp h2).1 hw
        simp only [wsDotGo, List.nil_append]
        rw [if_neg (by simp [hd]), if_neg (by simp [hdot])]
        rw [wsDotGo_id cs' (List.Chain'.tail (List.chain'_cons.mp h1).2)
          (List.Chain'.tail (List.chain'_cons.mp h2).2)]
        rfl
    · rw [if_neg hw, if_neg (by simp)]
      rw [wsDotGo_id cs (List.Chain'.tail h1) (List.Chain'.tail h2)]
      rfl

theorem collapseWs_id : ∀ (l : List Char), noWsRun l →
    (∀ c ∈ l, isWs c = true → c = ' ') → collapseWs l = l
  | [], _, _ => rfl
  | [c], _, hmem => by
    by_cases hw : isWs c = true
    · simp [collapseWs, hw, hmem c (by simp) hw]
    · simp [collapseWs, hw]
  | a :: b :: t, h1, hmem => by
    have hab : (isWs a && isWs b) = false := by
      cases hwa : isWs a
      · simp
      · cases hwb : isWs b
        · simp
        · have := (List.chain'_cons.mp h1).1 hwa
          rw [this] at hwb; cases hwb
    rw [show collapseWs (a :: b :: t) = (if isWs a then ' ' else a) :: collapseWs (b :: t)
      from by simp [collapseWs, hab]]
    have he : (if isWs a then ' ' else a) = a := by
      by_cases hwa : isWs a = true
      · rw [if_pos hwa, (hmem a (by simp) hwa).symm]
      · rw [if_neg hwa]
    rw [he, collapseWs_id (b :: t) (List.Chain'.tail h1)
      fun c hc hwc => hmem c (List.mem_cons_of_mem _ hc) hwc]

/-- C2 counterexample: deleting the inner marker of `"[doc[doc1]1]"`
splices the residue into a fresh `[doc1]`, which the single substitution
pass never revisits, so the sanitizer output still contains a citation
marker. -/
theorem claim_C2_cex : hasMarker (clean_response "[doc[doc1]1]").data = true := by
  have h1 : removeMarkers "[doc[doc1]1]".data = "[doc1]".data := by
    simp [removeMarkers, matchMarker, closeMarker]
  show hasMarker (cleanChars "[doc[doc1]1]".data) = true
  have h2 : cleanChars "[doc[doc1]1]".data = "[doc1]".data := by
    show stripChars (collapseWs (collapseWsDot (removeMarkers "[doc[doc1]1]".data))) = _
    rw [h1]; decide
  rw [h2]; decide

/-- C2 (amended): for inputs in which every `[` begins a complete
citation marker, the sanitizer output contains no citation marker.  (In
general the single left-to-right removal pass can leave a marker spliced
together from the residue of a deleted one.) -/
theorem claim_C2 (s : String) (h : okBrackets s.data = true) :
    hasMarker (clean_response s).data = false := by
  apply hasMarker_eq_false
  intro hmem
  exact no_lb_removeMarkers _ h (mem_cleanChars hmem (by decide))

theorem claim_C2_witness :
    okBrackets "We offer consulting. [doc1]".data = true ∧
      hasMarker (clean_response "We offer consulting. [doc1]").data = false :=
  ⟨by decide, claim_C2 "We offer consulting. [doc1]" (by decide)⟩

/-- C6 counterexample: the sanitizer is not idempotent, because its
output can itself contain a marker spliced together by the removal pass;
a second application removes it. -/
theorem claim_C6_cex :
    clean_response (clean_response "[doc[doc1]1]") ≠ clean_response "[doc[doc1]1]" := by
  have h1 : removeMarkers "[doc[doc1]1]".data = "[doc1]".data := by
    simp [removeMarkers, matchMarker, closeMarker]
  have h2 : clean_response "[doc[doc1]1]" = "[doc1]" := by
    show (⟨cleanChars "[doc[doc1]1]".data⟩ : String) = "[doc1]"
    refine congrArg String.mk ?_
    show stripChars (collapseWs (collapseWsDot (removeMarkers "[doc[doc1]1]".data))) = _
    rw [h1]; decide
  rw [h2]
  have h4 : clean_response "[doc1]" = "" := by
    have h5 : removeMarkers "[doc1]".data = [] := by
      simp [removeMarkers, matchMarker, closeMarker]
    refine congrArg String.mk ?_
    show stripChars (collapseWs (collapseWsDot (removeMarkers "[doc1]".data))) = _
    rw [h5]; decide
  rw [h4]
  decide

/-- C6 (amended): on inputs in which every `[` begins a complete
citation marker (so the removal pass leaves no marker in its output),
the sanitizer is idempotent. -/
theorem claim_C6 (s : String) (h : okBrackets s.data = true) :
    clean_response (clean_response s) = clean_response s := by
  have hnb : '[' ∉ cleanChars s.data := fun hmem =>
    no_lb_removeMarkers _ h (mem_cleanChars hmem (by decide))
  have hrun : noWsRun (cleanChars s.data) := chain_stripChars (noWsRun_collapseWs _)
  have hdot : noWsDot (cleanChars s.data) :=
    chain_stripChars (noWsDot_collapseWs _ (noWsDot_wsDotGo _ [] (by simp)))
  have hsp : ∀ c ∈ cleanChars s.data, isWs c = true → c = ' ' :=
    fun c hc hw => ws_collapseWs _ (mem_stripChars hc) hw
  refine congrArg String.mk ?_
  show cleanChars (cleanChars s.data) = cleanChars s.data
  show stripChars (collapseWs (collapseWsDot (removeMarkers (cleanChars s.data)))) = _
  rw [removeMarkers_id _ hnb]
  rw [show collapseWsDot (cleanChars s.data) = wsDotGo [] (cleanChars s.data) from rfl]
  rw [wsDotGo_id _ hrun hdot]
  rw [collapseWs_id _ hrun hsp]
  show stripChars (stripChars (collapseWs (collapseWsDot (removeMarkers s.data)))) = _
  exact stripChars_idem _

theorem claim_C6_witness :
    okBrackets "We offer consulting. [doc1]".data = true ∧
      clean_response (clean_response "We offer consulting. [doc1]") =
        clean_response "We offer consulting. [doc1]" :=
  ⟨by decide, claim_C6 "We offer consulting. [doc1]" (by decide)⟩

theorem alternating_append (t : List Turn) (halt : Alternating t) (u a : Turn)
    (hu : u.role = .user) (ha : a.role = .assistant) : Alternating (t ++ [u, a]) := by
  induction halt with
  | nil => exact .pair u a [] hu ha .nil
  | pair u' a' t' hu' ha' ht' ih => exact .pair u' a' _ hu' ha' ih

theorem alternating_head {t : List Turn} (halt : Alternating t) (h0 : 0 < t.length) :
    t[0].role = .user := by
  cases halt with
  | nil => simp at h0
  | pair u a t' hu ha ht' => exact hu

theorem reachable_shape {cfg : Config} {h : List Turn} (hr : Reachable cfg h) :
    ∃ ts rest, h = greetingTurn ts :: rest ∧ Alternating rest := by
  induction hr with
  | init ts => exact ⟨ts, [], rfl, .nil⟩
  | submit h raw tsU tsA r _ ih =>
    obtain ⟨ts, rest, heq, halt⟩ := ih
    by_cases he : pyStrip raw = ""
    · refine ⟨ts, rest, ?_, halt⟩
      rw [show (chat_post cfg h raw tsU tsA (some r)).1 = h from by simp [chat_post, he]]
      exact heq
    · refine ⟨ts,
        rest ++ [⟨.user, pyStrip raw, tsU⟩, ⟨.assistant, clean_response r, tsA⟩], ?_, ?_⟩
      · rw [show (chat_post cfg h raw tsU tsA (some r)).1 =
            h ++ [⟨.user, pyStrip raw, tsU⟩, ⟨.assistant, clean_response r, tsA⟩] from by
          simp [chat_post, get_chatbot_response, he]]
        rw [heq]
        simp
      · exact alternating_append rest halt _ _ rfl rfl
  | reset h ts _ _ => exact ⟨ts, [], rfl, .nil⟩

theorem alternating_index (t : List Turn) (halt : Alternating t) :
    ∀ i (hi : i < t.length), t[i].role = .user →
      i + 1 < t.length ∧ (∀ hj : i + 1 < t.length, t[i+1].role = .assistant) ∧
        ∀ hk : i + 2 < t.length, t[i+2].role = .user := by
  induction halt with
  | nil => intro i hi; simp at hi
  | pair u a t' hu ha ht' ih =>
    intro i hi hrole
    match i with
    | 0 =>
      refine ⟨by simp, fun hj => by simpa using ha, fun hk => ?_⟩
      have h0 : 0 < t'.length := by simp at hk; omega
      simpa using alternating_head ht' h0
    | 1 =>
      rw [show (u :: a :: t')[1] = a from rfl, ha] at hrole
      cases hrole
    | n + 2 =>
      have hi' : n < t'.length := by simp at hi; omega
      have hrole' : t'[n].role = .user := by simpa using hrole
      obtain ⟨hlen, hasst, husr⟩ := ih n hi' hrole'
      refine ⟨by simp; omega, fun hj => ?_, fun hk => ?_⟩
      · simpa using hasst (by simp at hj; omega)
      · simpa using husr (by simp at hk; omega)

/-- C3: every transcript reachable by completed operations starts with
the seeded assistant greeting; every user turn is immediately followed
by exactly one assistant turn (the turn after it is an assistant turn,
and the turn after that, when present, is again a user turn); and a
submission step only ever appends to the prior transcript — turns are
reordered or removed only by reset. -/
theorem claim_C3 (cfg : Config) (h : List Turn) (hr : Reachable cfg h) :
    (∃ ts, h.head? = some (greetingTurn ts)) ∧
    (∀ i (hi : i < h.length), h[i].role = .user →
      i + 1 < h.length ∧ (∀ hj : i + 1 < h.length, h[i+1].role = .assistant) ∧
        ∀ hk : i + 2 < h.length, h[i+2].role = .user) ∧
    (∀ (h₀ : List Turn) (raw tsU tsA r : String), ∃ ext,
      (chat_post cfg h₀ raw tsU tsA (some r)).1 = h₀ ++ ext) := by
  obtain ⟨ts, rest, heq, halt⟩ := reachable_shape hr
  subst heq
  refine ⟨⟨ts, rfl⟩, ?_, ?_⟩
  · intro i hi hrole
    match i with
    | 0 =>
      rw [show (greetingTurn ts :: rest)[0] = greetingTurn ts from rfl] at hrole
      cases hrole
    | n + 1 =>
      have hi' : n < rest.length := by simp at hi; omega
      have hrole' : rest[n].role = .user := by simpa using hrole
      obtain ⟨hlen, hasst, husr⟩ := alternating_index rest halt n hi' hrole'
      refine ⟨by simp; omega, fun hj => ?_, fun hk => ?_⟩
      · simpa using hasst (by simp at hj; omega)
      · simpa using husr (by simp at hk; omega)
  · intro h₀ raw tsU tsA r
    by_cases he : pyStrip raw = ""
    · exact ⟨[], by simp [chat_post, he]⟩
    · exact ⟨[⟨.user, pyStrip raw, tsU⟩, ⟨.assistant, clean_response r, tsA⟩],
        by simp [chat_post, get_chatbot_response, he]⟩

theorem claim_C3_witness :
    Reachable ⟨"d", "se", "si", "sk"⟩ (initHistory "t0") ∧
    ((∃ ts, (initHistory "t0").head? = some (greetingTurn ts)) ∧
      (∀ i (hi : i < (initHistory "t0").length), (initHistory "t0")[i].role = .user →
        i + 1 < (initHistory "t0").length ∧
          (∀ hj : i + 1 < (initHistory "t0").length,
            (initHistory "t0")[i+1].role = .assistant) ∧
          ∀ hk : i + 2 < (initHistory "t0").length,
            (initHistory "t0")[i+2].role = .user) ∧
      (∀ (h₀ : List Turn) (raw tsU tsA r : String), ∃ ext,
        (chat_post ⟨"d", "se", "si", "sk"⟩ h₀ raw tsU tsA (some r)).1 = h₀ ++ ext)) :=
  ⟨.init "t0", claim_C3 ⟨"d", "se", "si", "sk"⟩ (initHistory "t0") (.init "t0")⟩

end GradientM
